import Mathlib

/-!
# Verification of the findings aggregation and rendering engine

This file embeds the aggregation and rendering core of the `scan` CLI
command (`pkg/cli/scan.go`) into Lean and proves properties about it.

Modelling conventions:

* Go strings are Lean `String`s.  Go compares strings byte-wise; for valid
  UTF-8 this coincides with the code-point lexicographic order used by
  Lean's `String` linear order.
* A Go `map[string]V` is modelled as an association list
  `List (String × V)`: assignment updates an existing key in place and
  appends a new key at the end; reads of absent keys yield the zero value.
  Go does not guarantee any iteration order for map keys, so whenever the
  code iterates over map keys (`lo.Keys`), the model takes the key
  enumeration as an explicit parameter constrained to be a permutation of
  the stored keys.
* `sort.Strings` is a (comparison) sort of strings; `sort.SliceStable` is a
  stable sort.  A stable sort by a key is uniquely determined, and
  `List.insertionSort` with the non-strict key order is such a stable sort,
  so both are embedded as `List.insertionSort`.
* The styling primitives (`lipgloss` style rendering) and the terminal
  hyperlink primitive (`termlink`) are external collaborators; they are
  modelled concretely as ANSI-escape wrappers, matching their documented
  output shape.  The process-wide `termSupportsHyperlinks` flag is passed
  as an explicit boolean parameter.
-/

/-- `scan.Package` (from `pkg/scan`): the affected package.  The Go field
`Type` is a reserved word in Lean and is rendered `Type'`. -/
structure Package where
  ID : String
  Name : String
  Version : String
  Type' : String
  Location : String
deriving DecidableEq, Repr

/-- `scan.Vulnerability` (from `pkg/scan`): the vulnerability record. -/
structure Vulnerability where
  ID : String
  Aliases : List String
  Severity : String
  FixedVersion : String
deriving DecidableEq, Repr

/-- `scan.Finding`: one (package, vulnerability) detection. -/
structure Finding where
  Package : Package
  Vulnerability : Vulnerability
deriving DecidableEq, Repr

/-- The zero value of `scan.Package`, returned by a Go map read at an
absent key. -/
def zeroPackage : Package := ⟨"", "", "", "", ""⟩

/-! ## Go map model: association lists -/

/-- Go map assignment `m[k] = v`: update an existing key in place,
append a new key at the end. -/
def goSet (k : String) (v : α) : List (String × α) → List (String × α)
  | [] => [(k, v)]
  | (k', v') :: rest => if k' = k then (k, v) :: rest else (k', v') :: goSet k v rest

/-- Go map read `m[k]` with zero value `d` for an absent key. -/
def goGetD (k : String) (d : α) : List (String × α) → α
  | [] => d
  | (k', v') :: rest => if k' = k then v' else goGetD k d rest

/-- Go map read returning `none` when the key is absent. -/
def goFind (k : String) : List (String × α) → Option α
  | [] => none
  | (k', v') :: rest => if k' = k then some v' else goFind k rest

/-- The stored keys of a Go map (without any iteration-order guarantee). -/
def goKeys (m : List (String × α)) : List String := m.map Prod.fst

/-- Go map update of an existing key (no-op when the key is absent). -/
def goUpdate (k : String) (g : α → α) : List (String × α) → List (String × α)
  | [] => []
  | (k', v') :: rest => if k' = k then (k', g v') :: rest else (k', v') :: goUpdate k g rest

theorem goSet_cons_same (k : String) (w v : α) (rest : List (String × α)) :
    goSet k w ((k, v) :: rest) = (k, w) :: rest := by
  simp [goSet]

theorem goSet_cons_other {k k' : String} (h : k' ≠ k) (w : α) (v : α)
    (rest : List (String × α)) :
    goSet k w ((k', v) :: rest) = (k', v) :: goSet k w rest := by
  simp [goSet, h]

theorem goGetD_cons_same (k : String) (d : α) (v : α) (rest : List (String × α)) :
    goGetD k d ((k, v) :: rest) = v := by
  simp [goGetD]

theorem goGetD_cons_other {k k' : String} (h : k' ≠ k) (d : α) (v : α)
    (rest : List (String × α)) :
    goGetD k d ((k', v) :: rest) = goGetD k d rest := by
  simp [goGetD, h]

theorem goGetD_goSet_same (k : String) (v : α) (d : α) (m : List (String × α)) :
    goGetD k d (goSet k v m) = v := by
  induction m with
  | nil => simp [goSet, goGetD]
  | cons p rest ih =>
    obtain ⟨k', v'⟩ := p
    by_cases h : k' = k <;> simp [goSet, goGetD, h, ih]

theorem goGetD_goSet_other {k k' : String} (h : k' ≠ k) (v : α) (d : α)
    (m : List (String × α)) : goGetD k d (goSet k' v m) = goGetD k d m := by
  induction m with
  | nil => simp [goSet, goGetD, h]
  | cons p rest ih =>
    obtain ⟨k'', v''⟩ := p
    by_cases h2 : k'' = k'
    · subst h2
      simp [goSet, goGetD, h, Ne.symm h]
    · simp [goSet, goGetD, h2, ih]

theorem goFind_goSet_same (k : String) (v : α) (m : List (String × α)) :
    goFind k (goSet k v m) = some v := by
  induction m with
  | nil => simp [goSet, goFind]
  | cons p rest ih =>
    obtain ⟨k', v'⟩ := p
    by_cases h : k' = k <;> simp [goSet, goFind, h, ih]

theorem goFind_goSet_other {k k' : String} (h : k' ≠ k) (v : α) (m : List (String × α)) :
    goFind k (goSet k' v m) = goFind k m := by
  induction m with
  | nil => simp [goSet, goFind, h]
  | cons p rest ih =>
    obtain ⟨k'', v''⟩ := p
    by_cases h2 : k'' = k'
    · subst h2
      simp [goSet, goFind, h, Ne.symm h]
    · simp [goSet, goFind, h2, ih]

theorem goKeys_nil : goKeys ([] : List (String × α)) = [] := rfl

theorem goKeys_cons (p : String × α) (m : List (String × α)) :
    goKeys (p :: m) = p.1 :: goKeys m := rfl

theorem mem_goKeys_goSet (k k' : String) (v : α) (m : List (String × α)) :
    k ∈ goKeys (goSet k' v m) ↔ k = k' ∨ k ∈ goKeys m := by
  induction m with
  | nil => simp [goSet, goKeys_cons, goKeys_nil]
  | cons p rest ih =>
    obtain ⟨k'', v''⟩ := p
    by_cases h : k'' = k'
    · subst h
      rw [goSet_cons_same, goKeys_cons, goKeys_cons]
      simp only [List.mem_cons]
      tauto
    · rw [goSet_cons_other h, goKeys_cons, goKeys_cons]
      simp only [List.mem_cons]
      rw [ih]
      tauto

theorem goKeys_goSet_mem (k : String) (v : α) (m : List (String × α))
    (h : k ∈ goKeys m) : goKeys (goSet k v m) = goKeys m := by
  induction m with
  | nil => simp [goKeys_nil] at h
  | cons p rest ih =>
    obtain ⟨k', v'⟩ := p
    by_cases h2 : k' = k
    · subst h2
      rw [goSet_cons_same, goKeys_cons, goKeys_cons]
    · rw [goKeys_cons, List.mem_cons] at h
      have h3 : k ∈ goKeys rest := by
        rcases h with h | h
        · exact absurd h.symm h2
        · exact h
      rw [goSet_cons_other h2, goKeys_cons, goKeys_cons, ih h3]

theorem goKeys_goSet_not_mem (k : String) (v : α) (m : List (String × α))
    (h : k ∉ goKeys m) : goKeys (goSet k v m) = goKeys m ++ [k] := by
  induction m with
  | nil => simp [goSet, goKeys_cons, goKeys_nil]
  | cons p rest ih =>
    obtain ⟨k', v'⟩ := p
    rw [goKeys_cons, List.mem_cons] at h
    push_neg at h
    rw [goSet_cons_other (Ne.symm h.1), goKeys_cons, goKeys_cons, ih h.2,
      List.cons_append]

theorem nodup_goKeys_goSet (k : String) (v : α) (m : List (String × α))
    (h : (goKeys m).Nodup) : (goKeys (goSet k v m)).Nodup := by
  by_cases hk : k ∈ goKeys m
  · rw [goKeys_goSet_mem k v m hk]; exact h
  · rw [goKeys_goSet_not_mem k v m hk]
    simpa [List.nodup_append] using ⟨h, fun hmem => hk hmem⟩

/-! ## The aggregator: `newFindingsTree` -/

/-- `findingsTree` from `scan.go`: the two-level grouping plus the side
map from package ID to package metadata. -/
structure findingsTree where
  findingsByPackageByLocation : List (String × List (String × List Finding))
  packagesByID : List (String × Package)
deriving DecidableEq, Repr

/-- One iteration of the aggregation loop body of `newFindingsTree`:
`tree[loc][packageID] = append(tree[loc][packageID], f)` together with
`packagesByID[packageID] = f.Package`.  (Creating the inner map when the
location is first seen is subsumed by reading the absent location as the
empty map.) -/
def treeStep (acc : findingsTree) (f : Finding) : findingsTree :=
  let loc := f.Package.Location
  let packageID := f.Package.ID
  let inner := goGetD loc [] acc.findingsByPackageByLocation
  { findingsByPackageByLocation :=
      goSet loc (goSet packageID (goGetD packageID [] inner ++ [f]) inner)
        acc.findingsByPackageByLocation
    packagesByID := goSet packageID f.Package acc.packagesByID }

/-- `newFindingsTree` from `scan.go`: fold the loop body over the findings,
starting from empty maps. -/
def newFindingsTree (findings : List Finding) : findingsTree :=
  findings.foldl treeStep ⟨[], []⟩

/-- The `(location, packageID)` bucket of a tree: `tree[loc][pid]`,
reading absent keys as empty. -/
def bucket (t : findingsTree) (loc packageID : String) : List Finding :=
  goGetD packageID [] (goGetD loc [] t.findingsByPackageByLocation)

/-- The total number of findings stored across all buckets of the
grouping structure. -/
def totalCount (t : findingsTree) : Nat :=
  (t.findingsByPackageByLocation.map
    (fun p => (p.2.map (fun q => q.2.length)).sum)).sum

theorem bucket_treeStep (acc : findingsTree) (f : Finding) (loc packageID : String) :
    bucket (treeStep acc f) loc packageID =
      bucket acc loc packageID ++
        (if f.Package.Location = loc ∧ f.Package.ID = packageID then [f] else []) := by
  unfold bucket treeStep
  by_cases hloc : f.Package.Location = loc
  · subst hloc
    rw [goGetD_goSet_same]
    by_cases hpid : f.Package.ID = packageID
    · subst hpid
      rw [goGetD_goSet_same]
      simp
    · rw [goGetD_goSet_other (by simpa using hpid)]
      simp [hpid]
  · rw [goGetD_goSet_other (by simpa using hloc)]
    simp [hloc]

/-- The sum of bucket lengths in one location's inner map increases by one
when a finding is appended to one of its buckets. -/
theorem innerSum_append (packageID : String) (f : Finding)
    (inner : List (String × List Finding)) :
    ((goSet packageID (goGetD packageID [] inner ++ [f]) inner).map
        (fun q => q.2.length)).sum =
      (inner.map (fun q => q.2.length)).sum + 1 := by
  induction inner with
  | nil => simp [goSet, goGetD]
  | cons p rest ih =>
    obtain ⟨k, v⟩ := p
    by_cases h : k = packageID
    · subst h
      simp [goSet, goGetD]
      omega
    · simp [goSet, goGetD, h] at ih ⊢
      omega

theorem outerSum_set (loc packageID : String) (f : Finding)
    (tree : List (String × List (String × List Finding))) :
    ((goSet loc
        (goSet packageID (goGetD packageID [] (goGetD loc [] tree) ++ [f])
          (goGetD loc [] tree)) tree).map
      (fun p => (p.2.map (fun q => q.2.length)).sum)).sum =
      (tree.map (fun p => (p.2.map (fun q => q.2.length)).sum)).sum + 1 := by
  induction tree with
  | nil =>
    simp [goGetD, goSet]
  | cons p rest ih =>
    obtain ⟨k, v⟩ := p
    by_cases h : k = loc
    · subst h
      rw [goGetD_cons_same, goSet_cons_same]
      simp only [List.map_cons, List.sum_cons]
      rw [innerSum_append]
      omega
    · rw [goGetD_cons_other h, goSet_cons_other h]
      simp only [List.map_cons, List.sum_cons] at ih ⊢
      omega

theorem totalCount_treeStep (acc : findingsTree) (f : Finding) :
    totalCount (treeStep acc f) = totalCount acc + 1 := by
  unfold totalCount treeStep
  exact outerSum_set f.Package.Location f.Package.ID f acc.findingsByPackageByLocation

theorem bucket_newFindingsTree_aux (F : List Finding) (acc : findingsTree)
    (loc packageID : String) :
    bucket (F.foldl treeStep acc) loc packageID =
      bucket acc loc packageID ++
        F.filter (fun f =>
          f.Package.Location = loc ∧ f.Package.ID = packageID) := by
  induction F generalizing acc with
  | nil => simp
  | cons f F ih =>
    simp only [List.foldl_cons, ih, bucket_treeStep]
    by_cases h : f.Package.Location = loc ∧ f.Package.ID = packageID
    · simp [h, List.filter_cons]
    · simp [h, List.filter_cons]

theorem totalCount_newFindingsTree_aux (F : List Finding) (acc : findingsTree) :
    totalCount (F.foldl treeStep acc) = totalCount acc + F.length := by
  induction F generalizing acc with
  | nil => simp
  | cons f F ih =>
    simp only [List.foldl_cons, ih, totalCount_treeStep, List.length_cons]
    omega

/-- **C1.** For every sequence of findings, each `(Location, PackageID)`
bucket of the aggregated tree holds exactly the findings whose own
`Package.Location` and `Package.ID` equal that bucket's key (so every
finding lands in exactly one bucket, determined solely by those two
fields), and the total number of findings summed over all buckets equals
the length of the input. -/
theorem grouping_complete (F : List Finding) :
    (∀ loc packageID : String,
      bucket (newFindingsTree F) loc packageID =
        F.filter (fun f =>
          f.Package.Location = loc ∧ f.Package.ID = packageID)) ∧
    totalCount (newFindingsTree F) = F.length := by
  constructor
  · intro loc packageID
    have h := bucket_newFindingsTree_aux F ⟨[], []⟩ loc packageID
    simpa [bucket, goGetD] using h
  · have h := totalCount_newFindingsTree_aux F ⟨[], []⟩
    simpa [totalCount] using h

/-! ## Package metadata on repeated IDs -/

theorem goFind_treeStep_packagesByID (acc : findingsTree) (f : Finding) (packageID : String) :
    goFind packageID ((treeStep acc f).packagesByID) =
      if f.Package.ID = packageID then some f.Package
      else goFind packageID acc.packagesByID := by
  unfold treeStep
  by_cases h : f.Package.ID = packageID
  · subst h
    simp only [if_pos rfl]
    exact goFind_goSet_same _ _ _
  · rw [if_neg h]
    exact goFind_goSet_other h _ _

theorem goFind_packagesByID_aux (packageID : String) (F : List Finding) (acc : findingsTree) :
    goFind packageID ((F.foldl treeStep acc).packagesByID) =
      ((F.reverse.find? (fun f => f.Package.ID == packageID)).map Finding.Package).or
        (goFind packageID acc.packagesByID) := by
  induction F generalizing acc with
  | nil => simp
  | cons f F ih =>
    rw [List.foldl_cons, ih, List.reverse_cons, List.find?_append]
    cases hf : F.reverse.find? (fun f => f.Package.ID == packageID) with
    | some g => simp [Option.or]
    | none =>
      rw [goFind_treeStep_packagesByID]
      by_cases h : f.Package.ID = packageID
      · have hb : (f.Package.ID == packageID) = true := by simpa using h
        simp [List.find?, h, hb, Option.or]
      · have hb : (f.Package.ID == packageID) = false := by simpa using h
        simp [List.find?, h, hb, Option.or]

/-- The recorded package metadata for a package ID after aggregation. -/
def recordedPackage (t : findingsTree) (packageID : String) : Option Package :=
  goFind packageID t.packagesByID

/-- A first finding with ID `"id1"` and package name `"alpha"`. -/
def pkgAlpha : Package := ⟨"id1", "alpha", "1.0", "apk", "/bin/a"⟩

/-- A second finding with the same ID `"id1"` but package name `"beta"`. -/
def pkgBeta : Package := ⟨"id1", "beta", "2.0", "apk", "/bin/a"⟩

/-- A vulnerability used in concrete examples. -/
def vulnHigh : Vulnerability := ⟨"CVE-2024-0001", [], "High", ""⟩

/-- **C2 (counterexample).** The claim says the aggregator keeps the
package value of the *first* finding bearing a repeated ID.  On the code,
`packagesByID[packageID] = f.Package` runs unconditionally for every
finding, so the package recorded for `"id1"` after aggregating
`[⟨pkgAlpha, _⟩, ⟨pkgBeta, _⟩]` is `pkgBeta`, not the first writer
`pkgAlpha`. -/
theorem first_writer_wins_false :
    recordedPackage (newFindingsTree [⟨pkgAlpha, vulnHigh⟩, ⟨pkgBeta, vulnHigh⟩]) "id1" ≠
      some pkgAlpha := by
  decide

/-- **C2 (amended).** For every sequence of findings, the aggregator
records as a package ID's metadata the package value of the *last*
finding in input order bearing that ID (last writer wins), and
aggregation is a total function, so it never fails on inconsistent
inputs. -/
theorem packagesByID_last_writer (F : List Finding) (packageID : String) :
    recordedPackage (newFindingsTree F) packageID =
      (F.reverse.find? (fun f => f.Package.ID == packageID)).map Finding.Package := by
  have h := goFind_packagesByID_aux packageID F ⟨[], []⟩
  unfold recordedPackage newFindingsTree
  rw [h]
  cases (F.reverse.find? (fun f => f.Package.ID == packageID)).map Finding.Package with
  | none => simp [goFind, Option.or]
  | some g => simp [Option.or]

/-! ## Go string comparison

Go compares strings byte-wise lexicographically.  For valid UTF-8 this
agrees with code-point lexicographic comparison, modelled here as an
executable function on the character lists, and proved to agree with
Lean's `String` linear order. -/

/-- Lexicographic strict comparison of character lists. -/
def charListLt : List Char → List Char → Bool
  | [], [] => false
  | [], _ :: _ => true
  | _ :: _, [] => false
  | a :: as, b :: bs =>
    if a < b then true else if b < a then false else charListLt as bs

/-- Go `a < b` on strings: lexicographic. -/
def goStringLt (a b : String) : Bool := charListLt a.data b.data

/-- Go `a <= b` on strings. -/
def goStringLe (a b : String) : Bool := !goStringLt b a

theorem charListLt_iff_lex (l₁ l₂ : List Char) :
    charListLt l₁ l₂ = true ↔ List.Lex (· < ·) l₁ l₂ := by
  induction l₁ generalizing l₂ with
  | nil =>
    cases l₂ with
    | nil =>
      simp only [charListLt, Bool.false_eq_true, false_iff]
      intro h
      cases h
    | cons b bs =>
      simp only [charListLt, true_iff]
      exact List.Lex.nil
  | cons a as ih =>
    cases l₂ with
    | nil =>
      simp only [charListLt, Bool.false_eq_true, false_iff]
      intro h
      cases h
    | cons b bs =>
      by_cases hab : a < b
      · simp only [charListLt, if_pos hab, true_iff]
        exact List.Lex.rel hab
      · by_cases hba : b < a
        · simp only [charListLt, if_neg hab, if_pos hba, Bool.false_eq_true, false_iff]
          intro h
          cases h with
          | cons h => exact absurd hba (lt_irrefl a)
          | rel h => exact absurd h hab
        · have heq : a = b := le_antisymm (not_lt.mp hba) (not_lt.mp hab)
          subst heq
          simp only [charListLt, if_neg hab, if_neg hba]
          rw [ih bs]
          constructor
          · exact fun h => List.Lex.cons h
          · intro h
            cases h with
            | cons h => exact h
            | rel h => exact absurd h (lt_irrefl a)

theorem goStringLe_iff (a b : String) : goStringLe a b = true ↔ a ≤ b := by
  rw [goStringLe, Bool.not_eq_true', Bool.eq_false_iff, Ne, goStringLt,
    charListLt_iff_lex]
  constructor
  · intro h
    show ¬b < a
    intro hba
    rw [String.lt_iff_toList_lt] at hba
    exact h hba
  · intro h hlex
    exact h (String.lt_iff_toList_lt.mpr hlex)

instance : IsTotal String (fun a b => goStringLe a b = true) :=
  ⟨fun a b => by
    rw [goStringLe_iff, goStringLe_iff]
    exact le_total a b⟩

instance : IsTrans String (fun a b => goStringLe a b = true) :=
  ⟨fun a b c hab hbc => by
    rw [goStringLe_iff] at hab hbc ⊢
    exact le_trans hab hbc⟩

instance : IsAntisymm String (fun a b => goStringLe a b = true) :=
  ⟨fun a b hab hba => by
    rw [goStringLe_iff] at hab hba
    exact le_antisymm hab hba⟩

/-! ## Location ordering -/

/-- `sort.Strings`: sorts a string slice in increasing (lexicographic)
order.  Any comparison sort of strings produces the same output list, so
it is embedded as an insertion sort over Go's string comparison. -/
def sortStrings (l : List String) : List String :=
  List.insertionSort (fun a b => goStringLe a b = true) l

/-- The sequence of location nodes produced by `render`: the keys of the
outer map — handed to the model as the runtime's (unspecified) map
iteration order — sorted by `sort.Strings`. -/
def renderLocations (locOrder : List String) : List String :=
  sortStrings locOrder

/-- A valid iteration order for the outer (location) map of a tree: any
permutation of its stored keys, since Go specifies no map iteration
order. -/
def validLocOrder (t : findingsTree) (locOrder : List String) : Prop :=
  locOrder.Perm (goKeys t.findingsByPackageByLocation)

instance (t : findingsTree) (locOrder : List String) : Decidable (validLocOrder t locOrder) :=
  inferInstanceAs (Decidable (locOrder.Perm (goKeys t.findingsByPackageByLocation)))

theorem mem_goKeys_foldl_treeStep (F : List Finding) (acc : findingsTree) (loc : String) :
    loc ∈ goKeys ((F.foldl treeStep acc).findingsByPackageByLocation) ↔
      (∃ f ∈ F, f.Package.Location = loc) ∨
        loc ∈ goKeys acc.findingsByPackageByLocation := by
  induction F generalizing acc with
  | nil => simp
  | cons f F ih =>
    rw [List.foldl_cons, ih]
    have hstep : loc ∈ goKeys ((treeStep acc f).findingsByPackageByLocation) ↔
        loc = f.Package.Location ∨ loc ∈ goKeys acc.findingsByPackageByLocation := by
      unfold treeStep
      exact mem_goKeys_goSet _ _ _ _
    rw [hstep]
    simp only [List.mem_cons]
    constructor
    · rintro (⟨g, hg, hgl⟩ | h | h)
      · exact Or.inl ⟨g, Or.inr hg, hgl⟩
      · exact Or.inl ⟨f, Or.inl rfl, h.symm⟩
      · exact Or.inr h
    · rintro (⟨g, hg | hg, hgl⟩ | h)
      · subst hg
        exact Or.inr (Or.inl hgl.symm)
      · exact Or.inl ⟨g, hg, hgl⟩
      · exact Or.inr (Or.inr h)

theorem nodup_goKeys_foldl_treeStep (F : List Finding) (acc : findingsTree)
    (h : (goKeys acc.findingsByPackageByLocation).Nodup) :
    (goKeys ((F.foldl treeStep acc).findingsByPackageByLocation)).Nodup := by
  induction F generalizing acc with
  | nil => exact h
  | cons f F ih =>
    rw [List.foldl_cons]
    apply ih
    exact nodup_goKeys_goSet _ _ _ h

theorem goKeys_newFindingsTree_nodup (F : List Finding) :
    (goKeys (newFindingsTree F).findingsByPackageByLocation).Nodup :=
  nodup_goKeys_foldl_treeStep F ⟨[], []⟩ List.nodup_nil

theorem mem_goKeys_newFindingsTree (F : List Finding) (loc : String) :
    loc ∈ goKeys (newFindingsTree F).findingsByPackageByLocation ↔
      ∃ f ∈ F, f.Package.Location = loc := by
  have h := mem_goKeys_foldl_treeStep F ⟨[], []⟩ loc
  simpa [goKeys_nil] using h

/-- A finding located at `/bin/a`. -/
def findingLocA : Finding := ⟨⟨"idA", "pkga", "1.0", "apk", "/bin/a"⟩, vulnHigh⟩

/-- A finding located at `/bin/b`. -/
def findingLocB : Finding := ⟨⟨"idB", "pkgb", "1.0", "apk", "/bin/b"⟩, vulnHigh⟩

/-- **C3.** For any two finding sequences that are permutations of each
other, and any (runtime-chosen) iteration orders of the two aggregated
trees' location keys, `render` lists the same location nodes in the same
order, and that order is lexicographically sorted. -/
theorem location_order_deterministic (F1 F2 : List Finding) (lo1 lo2 : List String)
    (hF : F1.Perm F2)
    (h1 : validLocOrder (newFindingsTree F1) lo1)
    (h2 : validLocOrder (newFindingsTree F2) lo2) :
    renderLocations lo1 = renderLocations lo2 ∧
      List.Sorted (fun a b : String => a ≤ b) (renderLocations lo1) := by
  have hkeys : (goKeys (newFindingsTree F1).findingsByPackageByLocation).Perm
      (goKeys (newFindingsTree F2).findingsByPackageByLocation) := by
    rw [List.perm_ext_iff_of_nodup (goKeys_newFindingsTree_nodup F1)
      (goKeys_newFindingsTree_nodup F2)]
    intro loc
    rw [mem_goKeys_newFindingsTree, mem_goKeys_newFindingsTree]
    constructor
    · rintro ⟨f, hf, hl⟩
      exact ⟨f, hF.mem_iff.mp hf, hl⟩
    · rintro ⟨f, hf, hl⟩
      exact ⟨f, hF.mem_iff.mpr hf, hl⟩
  have hperm : lo1.Perm lo2 := (h1.trans hkeys).trans h2.symm
  simp only [renderLocations, sortStrings]
  have hs1 : List.Sorted (fun a b : String => goStringLe a b = true)
      (List.insertionSort (fun a b : String => goStringLe a b = true) lo1) :=
    List.sorted_insertionSort _ lo1
  have hs2 : List.Sorted (fun a b : String => goStringLe a b = true)
      (List.insertionSort (fun a b : String => goStringLe a b = true) lo2) :=
    List.sorted_insertionSort _ lo2
  have hp : (List.insertionSort (fun a b : String => goStringLe a b = true) lo1).Perm
      (List.insertionSort (fun a b : String => goStringLe a b = true) lo2) :=
    ((List.perm_insertionSort _ lo1).trans hperm).trans
      (List.perm_insertionSort _ lo2).symm
  refine ⟨List.eq_of_perm_of_sorted hp hs1 hs2, ?_⟩
  exact hs1.imp (fun h => (goStringLe_iff _ _).mp h)

/-- Witness for C3 at a concrete pair of permuted inputs and key orders. -/
theorem location_order_deterministic_witness :
    renderLocations ["/bin/b", "/bin/a"] = renderLocations ["/bin/a", "/bin/b"] ∧
      List.Sorted (fun a b : String => a ≤ b) (renderLocations ["/bin/b", "/bin/a"]) :=
  location_order_deterministic [findingLocB, findingLocA] [findingLocA, findingLocB]
    ["/bin/b", "/bin/a"] ["/bin/a", "/bin/b"]
    (by decide) (by decide) (by decide)


/-! ## The renderer: styling and line formatting -/

/-- Modelled from the spec: the `lipgloss` style-rendering primitive is an
external collaborator ("assumed to render styled text given a semantic
color and a string"), modelled as wrapping the text in a truecolor ANSI
foreground escape for the given hex color, followed by a reset. -/
def lipglossRender (color : String) (s : String) : String :=
  "\x1b[38;2;" ++ color ++ "m" ++ s ++ "\x1b[0m"

/-- `styleSubtle.Render`: the de-emphasized style (`#999999`). -/
def styleSubtle_Render (s : String) : String := lipglossRender "#999999" s

/-- `renderSeverity` from `scan.go`: the fixed severity-to-color mapping,
with unrecognized severities rendered as plain literal text. -/
def renderSeverity (severity : String) : String :=
  if severity = "Negligible" then lipglossRender "#999999" severity
  else if severity = "Low" then lipglossRender "#00ff00" severity
  else if severity = "Medium" then lipglossRender "#ffff00" severity
  else if severity = "High" then lipglossRender "#ff9900" severity
  else if severity = "Critical" then lipglossRender "#ff0000" severity
  else severity

/-- Modelled from the spec: `termlink.Link` is an external collaborator
producing a clickable hyperlink; modelled as the OSC 8 terminal hyperlink
escape wrapping the URL and the display text. -/
def termlink_Link (text url : String) : String :=
  "\x1b]8;;" ++ url ++ "\x07" ++ text ++ "\x1b]8;;\x07"

/-- Go `strings.HasPrefix(s, pre)`: byte-wise prefix test, modelled on
the character lists. -/
def hasPrefixGo (s pre : String) : Bool := pre.data.isPrefixOf s.data

/-- `hyperlinkVulnerabilityID` from `scan.go`.  The process-wide
`termSupportsHyperlinks` flag is passed explicitly. -/
def hyperlinkVulnerabilityID (termSupportsHyperlinks : Bool) (id : String) : String :=
  if !termSupportsHyperlinks then id
  else if hasPrefixGo id "CVE-" then
    termlink_Link id ("https://nvd.nist.gov/vuln/detail/" ++ id)
  else if hasPrefixGo id "GHSA-" then
    termlink_Link id ("https://github.com/advisories/" ++ id)
  else id

/-- The alias-scanning loop of `renderVulnerabilityID`: `cveID` starts as
`""` and is set to the first alias with prefix `CVE-`, after which the
loop breaks. -/
def firstCVEAlias : List String → String
  | [] => ""
  | a :: rest => if hasPrefixGo a "CVE-" then a else firstCVEAlias rest

/-- `renderVulnerabilityID` from `scan.go`. -/
def renderVulnerabilityID (termSupportsHyperlinks : Bool) (vuln : Vulnerability) : String :=
  let cveID := firstCVEAlias vuln.Aliases
  if cveID = "" then hyperlinkVulnerabilityID termSupportsHyperlinks vuln.ID
  else
    hyperlinkVulnerabilityID termSupportsHyperlinks cveID ++ " " ++
      styleSubtle_Render (hyperlinkVulnerabilityID termSupportsHyperlinks vuln.ID)

/-- `renderFixedIn` from `scan.go`. -/
def renderFixedIn (vuln : Vulnerability) : String :=
  if vuln.FixedVersion = "" then "" else " fixed in " ++ vuln.FixedVersion

/-- A location node line: `treeStem + "📄 " + location`. -/
def locationLine (treeStem location : String) : String :=
  treeStem ++ "📄 " ++ location

/-- A package node line: `"%s       📦 %s %s %s"` with the vertical
continuation marker, name, version, and the de-emphasized type in
parentheses. -/
def packageLine (verticalLine : String) (pkg : Package) : String :=
  verticalLine ++ "       📦 " ++ pkg.Name ++ " " ++ pkg.Version ++ " " ++
    styleSubtle_Render ("(" ++ pkg.Type' ++ ")")

/-- A vulnerability line: `"%s           %s %s%s"` with the vertical
continuation marker, severity badge, identifier, and fix annotation. -/
def vulnerabilityLine (termSupportsHyperlinks : Bool) (verticalLine : String)
    (f : Finding) : String :=
  verticalLine ++ "           " ++ renderSeverity f.Vulnerability.Severity ++ " " ++
    renderVulnerabilityID termSupportsHyperlinks f.Vulnerability ++
    renderFixedIn f.Vulnerability

/-! ## The renderer: ordering -/

/-- `sort.SliceStable(packages, ...)` by `Name`: the unique stable sort by
package name, embedded as an insertion sort with the non-strict key
order (which is stable). -/
def sortPackagesByName (packages : List Package) : List Package :=
  List.insertionSort (fun a b => goStringLe a.Name b.Name = true) packages

/-- `sort.SliceStable(findings, ...)` by `Vulnerability.ID`: the unique
stable sort by vulnerability ID. -/
def sortFindingsByVulnID (findings : List Finding) : List Finding :=
  List.insertionSort
    (fun a b => goStringLe a.Vulnerability.ID b.Vulnerability.ID = true) findings

instance : IsTotal Package (fun a b => goStringLe a.Name b.Name = true) :=
  ⟨fun a b => total_of (fun a b : String => goStringLe a b = true) a.Name b.Name⟩

instance : IsTrans Package (fun a b => goStringLe a.Name b.Name = true) :=
  ⟨fun _ _ _ hab hbc =>
    IsTrans.trans (r := fun a b : String => goStringLe a b = true) _ _ _ hab hbc⟩

instance : IsTotal Finding
    (fun a b => goStringLe a.Vulnerability.ID b.Vulnerability.ID = true) :=
  ⟨fun a b => total_of (fun a b : String => goStringLe a b = true)
    a.Vulnerability.ID b.Vulnerability.ID⟩

instance : IsTrans Finding
    (fun a b => goStringLe a.Vulnerability.ID b.Vulnerability.ID = true) :=
  ⟨fun _ _ _ hab hbc =>
    IsTrans.trans (r := fun a b : String => goStringLe a b = true) _ _ _ hab hbc⟩

/-- The package values listed under one location node: the inner map's
keys — handed to the model as the runtime's (unspecified) iteration order
`pkgIDOrder` — mapped through `packagesByID` and stably sorted by name. -/
def packagesRendered (t : findingsTree) (pkgIDOrder : List String) : List Package :=
  sortPackagesByName (pkgIDOrder.map (fun pid => goGetD pid zeroPackage t.packagesByID))

/-- A valid iteration order for the inner (package) map of one location:
any permutation of its stored keys. -/
def validPkgOrder (t : findingsTree) (loc : String) (pkgIDOrder : List String) : Prop :=
  pkgIDOrder.Perm (goKeys (goGetD loc [] t.findingsByPackageByLocation))

instance (t : findingsTree) (loc : String) (pkgIDOrder : List String) :
    Decidable (validPkgOrder t loc pkgIDOrder) :=
  inferInstanceAs
    (Decidable (pkgIDOrder.Perm (goKeys (goGetD loc [] t.findingsByPackageByLocation))))

/-- The findings listed under one package node: the `(location, packageID)`
bucket, stably sorted by vulnerability ID. -/
def findingsRendered (t : findingsTree) (loc packageID : String) : List Finding :=
  sortFindingsByVulnID (bucket t loc packageID)

/-- Stability of `orderedInsert` with respect to the elements holding any
fixed key value. -/
theorem filter_key_orderedInsert {α : Type} (key : α → String) (n : String) (a : α)
    (s : List α) :
    (List.orderedInsert (fun x y => goStringLe (key x) (key y) = true) a s).filter
        (fun x => key x == n) =
      (if key a == n then [a] else []) ++ s.filter (fun x => key x == n) := by
  induction s with
  | nil =>
    by_cases h : key a = n
    · simp [List.orderedInsert, List.filter, h]
    · have hb : (key a == n) = false := by simpa using h
      simp [List.orderedInsert, List.filter, hb]
  | cons b s ih =>
    by_cases hab : goStringLe (key a) (key b) = true
    · rw [List.orderedInsert, if_pos hab, List.filter_cons]
      by_cases h : key a = n
      · simp [h, List.filter_cons]
      · have hb : (key a == n) = false := by simpa using h
        simp [hb, List.filter_cons]
    · rw [List.orderedInsert, if_neg hab, List.filter_cons, ih]
      by_cases hb : key b = n
      · have ha : ¬key a = n := by
          intro ha
          exact hab (by rw [ha, hb]; exact (goStringLe_iff n n).mpr le_rfl)
        have ha' : (key a == n) = false := by simpa using ha
        have hb' : (key b == n) = true := by simpa using hb
        simp [ha', hb', List.filter_cons]
      · have hb' : (key b == n) = false := by simpa using hb
        simp [hb', List.filter_cons]

/-- Stability of insertion sort by a string key: the subsequence of
elements holding any fixed key value is unchanged. -/
theorem filter_key_insertionSort {α : Type} (key : α → String) (n : String)
    (l : List α) :
    (List.insertionSort (fun x y => goStringLe (key x) (key y) = true) l).filter
        (fun x => key x == n) =
      l.filter (fun x => key x == n) := by
  induction l with
  | nil => rfl
  | cons a l ih =>
    rw [List.insertionSort, filter_key_orderedInsert, ih, List.filter_cons]
    by_cases h : key a = n
    · simp [h]
    · have hb : (key a == n) = false := by simpa using h
      simp [hb]

/-- First of two same-named packages at one location. -/
def pkgDup1 : Package := ⟨"idX", "dupname", "1.0", "apk", "/bin/a"⟩

/-- Second package with the same name but a different ID. -/
def pkgDup2 : Package := ⟨"idY", "dupname", "2.0", "apk", "/bin/a"⟩

/-- A tree holding two same-named packages at one location. -/
def treeDup : findingsTree :=
  newFindingsTree [⟨pkgDup1, vulnHigh⟩, ⟨pkgDup2, vulnHigh⟩]

/-- **C4 (counterexample).** The claim says rendering the same aggregated
report twice yields the same package order even when names tie.  The
package IDs are enumerated from a Go map, whose iteration order is not
guaranteed to repeat: both `["idX", "idY"]` and `["idY", "idX"]` are
valid enumerations of the same inner map, and on a name tie the stable
sort preserves whichever enumeration the runtime produced, so the two
renders list the same-named packages in different orders. -/
theorem package_tie_order_not_deterministic :
    validPkgOrder treeDup "/bin/a" ["idX", "idY"] ∧
      validPkgOrder treeDup "/bin/a" ["idY", "idX"] ∧
      packagesRendered treeDup ["idX", "idY"] ≠
        packagesRendered treeDup ["idY", "idX"] := by
  decide

/-- **C4 (amended).** Within every location node, the package lines appear
stably sorted lexicographically by `Package.Name` (not by ID) — for every
valid key enumeration the output is sorted by name, is a permutation of
the packages recorded for that location's package IDs, and packages
sharing a name keep the enumeration's relative order (stable sort).  The
enumeration order itself comes from Go map iteration, which is not
guaranteed stable across renders, so name ties need not render in the
same order twice. -/
theorem package_order_sorted (t : findingsTree) (loc : String)
    (pkgIDOrder : List String) (h : validPkgOrder t loc pkgIDOrder) :
    List.Sorted (fun a b : Package => a.Name ≤ b.Name) (packagesRendered t pkgIDOrder) ∧
      (packagesRendered t pkgIDOrder).Perm
        ((goKeys (goGetD loc [] t.findingsByPackageByLocation)).map
          (fun pid => goGetD pid zeroPackage t.packagesByID)) ∧
      ∀ n : String,
        (packagesRendered t pkgIDOrder).filter (fun p : Package => p.Name == n) =
          (pkgIDOrder.map (fun pid => goGetD pid zeroPackage t.packagesByID)).filter
            (fun p : Package => p.Name == n) := by
  refine ⟨?_, ?_, fun n => ?_⟩
  · exact (List.sorted_insertionSort
      (fun a b : Package => goStringLe a.Name b.Name = true) _).imp
      (fun hx => (goStringLe_iff _ _).mp hx)
  · exact (List.perm_insertionSort _ _).trans (h.map _)
  · exact filter_key_insertionSort (fun p : Package => p.Name) n _

/-- Witness for the amended C4 at a concrete tree and enumeration. -/
theorem package_order_sorted_witness :
    List.Sorted (fun a b : Package => a.Name ≤ b.Name)
        (packagesRendered treeDup ["idX", "idY"]) ∧
      (packagesRendered treeDup ["idX", "idY"]).Perm
        ((goKeys (goGetD "/bin/a" [] treeDup.findingsByPackageByLocation)).map
          (fun pid => goGetD pid zeroPackage treeDup.packagesByID)) ∧
      ∀ n : String,
        (packagesRendered treeDup ["idX", "idY"]).filter (fun p : Package => p.Name == n) =
          ((["idX", "idY"] : List String).map
            (fun pid => goGetD pid zeroPackage treeDup.packagesByID)).filter
            (fun p : Package => p.Name == n) :=
  package_order_sorted treeDup "/bin/a" ["idX", "idY"] (by decide)

/-- **C5.** Within every package node, the vulnerability lines appear
sorted lexicographically by `Vulnerability.ID` via a stable sort: the
output is sorted by ID, is a permutation of the bucket (so findings
sharing an ID are all rendered, never merged), and findings sharing an ID
keep their bucket (insertion) order. -/
theorem vulnerability_order_stable (t : findingsTree) (loc packageID : String) :
    List.Sorted (fun a b : Finding => a.Vulnerability.ID ≤ b.Vulnerability.ID)
        (findingsRendered t loc packageID) ∧
      (findingsRendered t loc packageID).Perm (bucket t loc packageID) ∧
      ∀ vid : String,
        (findingsRendered t loc packageID).filter
            (fun f : Finding => f.Vulnerability.ID == vid) =
          (bucket t loc packageID).filter
            (fun f : Finding => f.Vulnerability.ID == vid) := by
  refine ⟨?_, List.perm_insertionSort _ _, fun vid => ?_⟩
  · exact (List.sorted_insertionSort
      (fun a b : Finding => goStringLe a.Vulnerability.ID b.Vulnerability.ID = true) _).imp
      (fun hx => (goStringLe_iff _ _).mp hx)
  · exact filter_key_insertionSort (fun f : Finding => f.Vulnerability.ID) vid _

/-! ## Identifier precedence, hyperlinking, and fix annotation -/

theorem firstCVEAlias_spec (l : List String) :
    (l.find? (fun a => hasPrefixGo a "CVE-") = none ∧ firstCVEAlias l = "") ∨
      (∃ c, l.find? (fun a => hasPrefixGo a "CVE-") = some c ∧
        firstCVEAlias l = c ∧ c ≠ "") := by
  induction l with
  | nil => exact Or.inl ⟨rfl, rfl⟩
  | cons a l ih =>
    by_cases h : hasPrefixGo a "CVE-" = true
    · refine Or.inr ⟨a, ?_, ?_, ?_⟩
      · exact List.find?_cons_of_pos _ h
      · rw [firstCVEAlias, if_pos h]
      · intro he
        subst he
        rw [show hasPrefixGo "" "CVE-" = false from rfl] at h
        exact Bool.false_ne_true h
    · have h' : hasPrefixGo a "CVE-" = false := by
        simpa using h
      have hstep : List.find? (fun x => hasPrefixGo x "CVE-") (a :: l) =
          List.find? (fun x => hasPrefixGo x "CVE-") l :=
        List.find?_cons_of_neg _ (by simp [h'])
      rcases ih with ⟨h1, h2⟩ | ⟨c, h1, h2, h3⟩
      · refine Or.inl ⟨?_, ?_⟩
        · rw [hstep, h1]
        · rw [firstCVEAlias, if_neg h, h2]
      · refine Or.inr ⟨c, ?_, ?_, h3⟩
        · rw [hstep, h1]
        · rw [firstCVEAlias, if_neg h, h2]

/-- **C6.** The rendered identifier is determined by scanning the aliases
in order for the first one with prefix `CVE-`: if one exists, that CVE
alias is rendered first, followed by the native ID wrapped in the
de-emphasized style, both independently hyperlinked; if none exists, only
the native ID is rendered, hyperlinked and not de-emphasized. -/
theorem vulnerability_id_precedence (sup : Bool) (vuln : Vulnerability) :
    renderVulnerabilityID sup vuln =
      match vuln.Aliases.find? (fun a => hasPrefixGo a "CVE-") with
      | some cveID =>
          hyperlinkVulnerabilityID sup cveID ++ " " ++
            styleSubtle_Render (hyperlinkVulnerabilityID sup vuln.ID)
      | none => hyperlinkVulnerabilityID sup vuln.ID := by
  rcases firstCVEAlias_spec vuln.Aliases with ⟨h1, h2⟩ | ⟨c, h1, h2, h3⟩
  · rw [h1, renderVulnerabilityID, h2]
    simp
  · rw [h1, renderVulnerabilityID, h2, if_neg h3]

theorem cve_ghsa_mutually_exclusive (s : String) (h : hasPrefixGo s "CVE-" = true) :
    hasPrefixGo s "GHSA-" = false := by
  by_contra hg
  rw [Bool.not_eq_false] at hg
  rw [hasPrefixGo, List.isPrefixOf_iff_prefix] at h hg
  obtain ⟨t, ht⟩ := h
  obtain ⟨u, hu⟩ := hg
  rw [← ht] at hu
  rw [show ("GHSA-" : String).data = 'G' :: "HSA-".data from rfl,
    show ("CVE-" : String).data = 'C' :: "VE-".data from rfl] at hu
  simp at hu

/-- **C7.** When the hyperlink-capability flag is false the identifier is
rendered as its plain literal text; when true, a `CVE-`-prefixed
identifier links to the NVD detail page, a `GHSA-`-prefixed identifier
links to the GitHub advisory page, and any other identifier is rendered
plain. -/
theorem hyperlink_gating (termSupportsHyperlinks : Bool) (id : String) :
    (termSupportsHyperlinks = false → hyperlinkVulnerabilityID termSupportsHyperlinks id = id) ∧
      (termSupportsHyperlinks = true →
        (hasPrefixGo id "CVE-" = true →
          hyperlinkVulnerabilityID termSupportsHyperlinks id =
            termlink_Link id ("https://nvd.nist.gov/vuln/detail/" ++ id)) ∧
        (hasPrefixGo id "GHSA-" = true →
          hyperlinkVulnerabilityID termSupportsHyperlinks id =
            termlink_Link id ("https://github.com/advisories/" ++ id)) ∧
        (hasPrefixGo id "CVE-" = false → hasPrefixGo id "GHSA-" = false →
          hyperlinkVulnerabilityID termSupportsHyperlinks id = id)) := by
  refine ⟨fun hs => ?_, fun hs => ⟨fun hc => ?_, fun hg => ?_, fun hc hg => ?_⟩⟩
  · subst hs
    rw [hyperlinkVulnerabilityID]
    simp
  · subst hs
    rw [hyperlinkVulnerabilityID]
    simp [hc]
  · subst hs
    have hc : hasPrefixGo id "CVE-" = false := by
      by_contra hx
      rw [Bool.not_eq_false] at hx
      rw [cve_ghsa_mutually_exclusive id hx] at hg
      exact Bool.false_ne_true hg
    rw [hyperlinkVulnerabilityID]
    simp [hc, hg]
  · subst hs
    rw [hyperlinkVulnerabilityID]
    simp [hc, hg]

/-- Witness for C7 at both flag values and all three prefix shapes. -/
theorem hyperlink_gating_witness :
    hyperlinkVulnerabilityID false "CVE-2023-0001" = "CVE-2023-0001" ∧
      hyperlinkVulnerabilityID true "CVE-2023-0001" =
        termlink_Link "CVE-2023-0001" "https://nvd.nist.gov/vuln/detail/CVE-2023-0001" ∧
      hyperlinkVulnerabilityID true "GHSA-aaaa" =
        termlink_Link "GHSA-aaaa" "https://github.com/advisories/GHSA-aaaa" ∧
      hyperlinkVulnerabilityID true "OSV-1" = "OSV-1" :=
  ⟨(hyperlink_gating false "CVE-2023-0001").1 rfl,
    by
      have h := ((hyperlink_gating true "CVE-2023-0001").2 rfl).1 (by decide)
      rw [h]
      exact rfl,
    by
      have h := (((hyperlink_gating true "GHSA-aaaa").2 rfl).2).1 (by decide)
      rw [h]
      exact rfl,
    (((hyperlink_gating true "OSV-1").2 rfl).2).2 (by decide) (by decide)⟩

/-! ## Fix annotation -/

/-- Substring containment, on the character lists. -/
def strContainsSub (s sub : String) : Bool :=
  (List.range (s.data.length + 1)).any (fun i => sub.data.isPrefixOf (s.data.drop i))

theorem strContainsSub_of_data (s sub : String) (A : List Char)
    (h : s.data = A ++ sub.data) : strContainsSub s sub = true := by
  rw [strContainsSub, List.any_eq_true]
  refine ⟨A.length, ?_, ?_⟩
  · rw [List.mem_range, h, List.length_append]
    omega
  · rw [h, List.drop_left, List.isPrefixOf_iff_prefix]

/-- A vulnerability whose own native ID happens to contain the words
`fixed in`, with an empty `FixedVersion`. -/
def vulnOddID : Vulnerability := ⟨"vuln fixed in 9", [], "None", ""⟩

/-- **C8 (counterexample).** The claim says a line for a vulnerability
with empty `FixedVersion` contains no `fixed in <FixedVersion>` substring
anywhere.  But the fix annotation is only about what `renderFixedIn`
appends: other fields flow into the same line verbatim, so a native
vulnerability ID containing the words `fixed in` puts that substring into
the line even though `FixedVersion` is empty and nothing was appended. -/
theorem fixedIn_substring_iff_false :
    vulnOddID.FixedVersion = "" ∧
      strContainsSub (vulnerabilityLine false "│" ⟨pkgAlpha, vulnOddID⟩)
        ("fixed in " ++ vulnOddID.FixedVersion) = true := by
  constructor
  · rfl
  · decide

/-- **C8 (amended).** If `FixedVersion` is non-empty the rendered line
contains the substring `fixed in <FixedVersion>`; if it is empty, nothing
is appended — the line is exactly the prefix ending at the identifier —
though the words `fixed in` may still occur when another rendered field
contains them. -/
theorem fixedIn_substring (termSupportsHyperlinks : Bool) (verticalLine : String)
    (f : Finding) :
    (f.Vulnerability.FixedVersion ≠ "" →
      strContainsSub (vulnerabilityLine termSupportsHyperlinks verticalLine f)
        ("fixed in " ++ f.Vulnerability.FixedVersion) = true) ∧
      (f.Vulnerability.FixedVersion = "" →
        vulnerabilityLine termSupportsHyperlinks verticalLine f =
          verticalLine ++ "           " ++ renderSeverity f.Vulnerability.Severity ++
            " " ++ renderVulnerabilityID termSupportsHyperlinks f.Vulnerability) := by
  constructor
  · intro hv
    apply strContainsSub_of_data _ _
      ((verticalLine ++ "           " ++ renderSeverity f.Vulnerability.Severity ++
        " " ++ renderVulnerabilityID termSupportsHyperlinks f.Vulnerability).data ++ [' '])
    rw [vulnerabilityLine, renderFixedIn, if_neg hv]
    simp only [String.data_append]
    simp
  · intro hv
    rw [vulnerabilityLine, renderFixedIn, if_pos hv]
    exact String.append_empty _

/-- Witness for the amended C8 at concrete vulnerabilities with and
without a fix version. -/
theorem fixedIn_substring_witness :
    strContainsSub
        (vulnerabilityLine false "│" ⟨pkgAlpha, ⟨"CVE-2024-0002", [], "Low", "1.2.3"⟩⟩)
        ("fixed in " ++ "1.2.3") = true ∧
      vulnerabilityLine false "│" ⟨pkgAlpha, vulnHigh⟩ =
        "│" ++ "           " ++ renderSeverity "High" ++ " " ++
          renderVulnerabilityID false ⟨"CVE-2024-0001", [], "High", ""⟩ :=
  ⟨(fixedIn_substring false "│" ⟨pkgAlpha, ⟨"CVE-2024-0002", [], "Low", "1.2.3"⟩⟩).1
      (by decide),
    (fixedIn_substring false "│" ⟨pkgAlpha, vulnHigh⟩).2 rfl⟩

/-! ## The full renderer -/

/-- The body lines of one location block: for each package at `location`
(enumerated by the runtime in `pkgIDOrder`, then stably sorted by name),
its package line followed by its vulnerability lines. -/
def locationBlock (termSupportsHyperlinks : Bool) (t : findingsTree)
    (verticalLine location : String) (pkgIDOrder : List String) : List String :=
  (packagesRendered t pkgIDOrder).flatMap (fun pkg =>
    packageLine verticalLine pkg ::
      (findingsRendered t location pkg.ID).map
        (vulnerabilityLine termSupportsHyperlinks verticalLine))

/-- The sequence of output lines of `render`: sorted locations, each
with a branch connector (terminal glyph for the last location), its block
body, and a trailing continuation-marker line. -/
def renderLines (termSupportsHyperlinks : Bool) (locOrder : List String)
    (pkgOrder : String → List String) (t : findingsTree) : List String :=
  let locations := renderLocations locOrder
  locations.enum.flatMap (fun p =>
    let treeStem := if p.1 = locations.length - 1 then "└── " else "├── "
    let verticalLine := if p.1 = locations.length - 1 then " " else "│"
    (locationLine treeStem p.2 ::
      locationBlock termSupportsHyperlinks t verticalLine p.2 (pkgOrder p.2)) ++
      [verticalLine])

/-- The state effect of `render`: `sort.SliceStable(findings, ...)` sorts
each visited bucket's backing slice in place.  A bucket is visited once
for every location in the enumeration and every package rendered there;
the bucket is addressed through the looked-up package's `.ID` field,
exactly as in the source. -/
def renderPost (locOrder : List String) (pkgOrder : String → List String)
    (t : findingsTree) : findingsTree :=
  let newTree :=
    (renderLocations locOrder).foldl
      (fun tree location =>
        (packagesRendered t (pkgOrder location)).foldl
          (fun tree2 pkg =>
            goUpdate location (goUpdate pkg.ID sortFindingsByVulnID) tree2)
          tree)
      t.findingsByPackageByLocation
  { t with findingsByPackageByLocation := newTree }

/-- `render` from `scan.go`: the joined text, together with the grouping
structure as it stands after rendering (the in-place bucket sorts are
factored into `renderPost`; they cannot affect the text because each
bucket is a distinct slice read exactly once, right after its own
sort). -/
def render (termSupportsHyperlinks : Bool) (locOrder : List String)
    (pkgOrder : String → List String) (t : findingsTree) : String × findingsTree :=
  (String.intercalate "\n" (renderLines termSupportsHyperlinks locOrder pkgOrder t),
    renderPost locOrder pkgOrder t)

/-! ## `goUpdate` lemmas -/

theorem goFind_goUpdate_same (k : String) (g : α → α) (m : List (String × α)) :
    goFind k (goUpdate k g m) = (goFind k m).map g := by
  induction m with
  | nil => simp [goUpdate, goFind]
  | cons p rest ih =>
    obtain ⟨k', v'⟩ := p
    by_cases h : k' = k
    · subst h
      simp [goUpdate, goFind]
    · simp [goUpdate, goFind, h, ih]

theorem goFind_goUpdate_other {k k' : String} (h : k' ≠ k) (g : α → α)
    (m : List (String × α)) : goFind k (goUpdate k' g m) = goFind k m := by
  induction m with
  | nil => simp [goUpdate, goFind]
  | cons p rest ih =>
    obtain ⟨k'', v''⟩ := p
    by_cases h2 : k'' = k'
    · subst h2
      simp [goUpdate, goFind, h, Ne.symm h]
    · simp [goUpdate, goFind, h2, ih]

theorem goKeys_goUpdate (k : String) (g : α → α) (m : List (String × α)) :
    goKeys (goUpdate k g m) = goKeys m := by
  induction m with
  | nil => rfl
  | cons p rest ih =>
    obtain ⟨k', v'⟩ := p
    by_cases h : k' = k
    · subst h
      simp [goUpdate, goKeys_cons]
    · simp [goUpdate, goKeys_cons, h, ih]

theorem goGetD_eq_goFind (k : String) (d : α) (m : List (String × α)) :
    goGetD k d m = (goFind k m).getD d := by
  induction m with
  | nil => rfl
  | cons p rest ih =>
    obtain ⟨k', v'⟩ := p
    by_cases h : k' = k
    · subst h
      simp [goGetD, goFind]
    · simp [goGetD, goFind, h, ih]

theorem mem_goKeys_iff_goFind (k : String) (m : List (String × α)) :
    k ∈ goKeys m ↔ ∃ v, goFind k m = some v := by
  induction m with
  | nil => simp [goKeys_nil, goFind]
  | cons p rest ih =>
    obtain ⟨k', v'⟩ := p
    by_cases h : k' = k
    · subst h
      simp [goKeys_cons, goFind]
    · simp only [goKeys_cons, List.mem_cons]
      rw [ih]
      simp [goFind, h, Ne.symm h]

theorem goUpdate_goUpdate_same (k : String) (f g : α → α) (m : List (String × α)) :
    goUpdate k f (goUpdate k g m) = goUpdate k (fun v => f (g v)) m := by
  induction m with
  | nil => rfl
  | cons p rest ih =>
    obtain ⟨k', v'⟩ := p
    by_cases h : k' = k
    · subst h
      simp [goUpdate]
    · simp [goUpdate, h, ih]

theorem goUpdate_id (k : String) (m : List (String × α)) :
    goUpdate k (fun v => v) m = m := by
  induction m with
  | nil => rfl
  | cons p rest ih =>
    obtain ⟨k', v'⟩ := p
    by_cases h : k' = k
    · subst h
      simp [goUpdate]
    · simp [goUpdate, h, ih]

theorem foldl_goUpdate_pointwise (G : String → α → α) (ks : List String)
    (hnd : ks.Nodup) (m : List (String × α)) (k : String) :
    goFind k (ks.foldl (fun acc k' => goUpdate k' (G k') acc) m) =
      if k ∈ ks then (goFind k m).map (G k) else goFind k m := by
  induction ks generalizing m with
  | nil => simp
  | cons k₁ ks ih =>
    rcases List.nodup_cons.mp hnd with ⟨hk₁, hks⟩
    rw [List.foldl_cons, ih hks]
    by_cases hk : k = k₁
    · subst hk
      rw [if_neg hk₁, goFind_goUpdate_same, if_pos (List.mem_cons_self k ks)]
    · rw [goFind_goUpdate_other (Ne.symm hk)]
      by_cases hmem : k ∈ ks
      · rw [if_pos hmem, if_pos (List.mem_cons_of_mem k₁ hmem)]
      · rw [if_neg hmem, if_neg (by simp [hk, hmem])]

theorem foldl_inner_goUpdate {β : Type} (loc₀ : String) (g : β → β)
    (pids : List String) (tree : List (String × List (String × β))) :
    pids.foldl (fun tr pid => goUpdate loc₀ (goUpdate pid g) tr) tree =
      goUpdate loc₀
        (fun inner => pids.foldl (fun inn pid => goUpdate pid g inn) inner) tree := by
  induction pids generalizing tree with
  | nil => exact (goUpdate_id loc₀ tree).symm
  | cons pid pids ih =>
    rw [List.foldl_cons, ih, goUpdate_goUpdate_same]
    rfl

/-! ## Aggregator invariants used by the renderer -/

theorem packagesByID_ID_aux (F : List Finding) (acc : findingsTree)
    (hacc : ∀ pid p, goFind pid acc.packagesByID = some p → p.ID = pid) :
    ∀ pid p, goFind pid ((F.foldl treeStep acc).packagesByID) = some p → p.ID = pid := by
  induction F generalizing acc with
  | nil => exact hacc
  | cons f F ih =>
    rw [List.foldl_cons]
    apply ih
    intro pid p hp
    rw [goFind_treeStep_packagesByID] at hp
    by_cases h : f.Package.ID = pid
    · rw [if_pos h] at hp
      injection hp with hp'
      rw [← hp']
      exact h
    · rw [if_neg h] at hp
      exact hacc pid p hp

theorem packagesByID_ID (F : List Finding) :
    ∀ pid p, goFind pid (newFindingsTree F).packagesByID = some p → p.ID = pid :=
  packagesByID_ID_aux F ⟨[], []⟩ (fun pid p hp => by simp [goFind] at hp)

theorem inner_keys_sub_aux (F : List Finding) (acc : findingsTree)
    (hacc : ∀ loc pid,
      pid ∈ goKeys (goGetD loc [] acc.findingsByPackageByLocation) →
      pid ∈ goKeys acc.packagesByID) :
    ∀ loc pid,
      pid ∈ goKeys (goGetD loc [] (F.foldl treeStep acc).findingsByPackageByLocation) →
      pid ∈ goKeys (F.foldl treeStep acc).packagesByID := by
  induction F generalizing acc with
  | nil => exact hacc
  | cons f F ih =>
    rw [List.foldl_cons]
    apply ih
    intro loc pid hmem
    show pid ∈ goKeys (goSet f.Package.ID f.Package acc.packagesByID)
    rw [mem_goKeys_goSet]
    have hmem' : pid ∈ goKeys (goGetD loc []
        (goSet f.Package.Location
          (goSet f.Package.ID
            (goGetD f.Package.ID []
              (goGetD f.Package.Location [] acc.findingsByPackageByLocation) ++ [f])
            (goGetD f.Package.Location [] acc.findingsByPackageByLocation))
          acc.findingsByPackageByLocation)) := hmem
    by_cases hloc : f.Package.Location = loc
    · rw [hloc, goGetD_goSet_same, mem_goKeys_goSet] at hmem'
      rcases hmem' with h | h
      · exact Or.inl h
      · exact Or.inr (hacc loc pid h)
    · rw [goGetD_goSet_other hloc] at hmem'
      exact Or.inr (hacc loc pid hmem')

theorem inner_keys_sub (F : List Finding) (loc pid : String)
    (h : pid ∈ goKeys (goGetD loc [] (newFindingsTree F).findingsByPackageByLocation)) :
    pid ∈ goKeys (newFindingsTree F).packagesByID :=
  inner_keys_sub_aux F ⟨[], []⟩
    (fun loc pid h => by simp [goGetD, goKeys_nil] at h) loc pid h

theorem inner_keys_nodup_aux (F : List Finding) (acc : findingsTree)
    (hacc : ∀ loc, (goKeys (goGetD loc [] acc.findingsByPackageByLocation)).Nodup) :
    ∀ loc,
      (goKeys (goGetD loc [] (F.foldl treeStep acc).findingsByPackageByLocation)).Nodup := by
  induction F generalizing acc with
  | nil => exact hacc
  | cons f F ih =>
    rw [List.foldl_cons]
    apply ih
    intro loc
    show (goKeys (goGetD loc []
        (goSet f.Package.Location
          (goSet f.Package.ID
            (goGetD f.Package.ID []
              (goGetD f.Package.Location [] acc.findingsByPackageByLocation) ++ [f])
            (goGetD f.Package.Location [] acc.findingsByPackageByLocation))
          acc.findingsByPackageByLocation))).Nodup
    by_cases hloc : f.Package.Location = loc
    · rw [hloc, goGetD_goSet_same]
      exact nodup_goKeys_goSet _ _ _ (by rw [← hloc]; exact hacc f.Package.Location)
    · rw [goGetD_goSet_other hloc]
      exact hacc loc

theorem inner_keys_nodup (F : List Finding) (loc : String) :
    (goKeys (goGetD loc [] (newFindingsTree F).findingsByPackageByLocation)).Nodup :=
  inner_keys_nodup_aux F ⟨[], []⟩ (fun loc => by simp [goGetD, goKeys_nil]) loc

theorem lookup_ID_of_mem (F : List Finding) (pid : String)
    (h : pid ∈ goKeys (newFindingsTree F).packagesByID) :
    (goGetD pid zeroPackage (newFindingsTree F).packagesByID).ID = pid := by
  rcases (mem_goKeys_iff_goFind pid _).mp h with ⟨p, hp⟩
  rw [goGetD_eq_goFind, hp, Option.getD_some]
  exact packagesByID_ID F pid p hp

/-! ## The renderer's state effect -/

theorem renderPost_bucket (F : List Finding) (locOrder : List String)
    (pkgOrder : String → List String)
    (hlo : validLocOrder (newFindingsTree F) locOrder)
    (hpo : ∀ loc ∈ goKeys (newFindingsTree F).findingsByPackageByLocation,
      validPkgOrder (newFindingsTree F) loc (pkgOrder loc))
    (loc packageID : String) :
    bucket (renderPost locOrder pkgOrder (newFindingsTree F)) loc packageID =
      sortFindingsByVulnID (bucket (newFindingsTree F) loc packageID) := by
  have hkeysnd : (goKeys (newFindingsTree F).findingsByPackageByLocation).Nodup :=
    goKeys_newFindingsTree_nodup F
  have hlocperm : (renderLocations locOrder).Perm
      (goKeys (newFindingsTree F).findingsByPackageByLocation) :=
    (List.perm_insertionSort _ locOrder).trans hlo
  have hlocnd : (renderLocations locOrder).Nodup := hlocperm.nodup_iff.mpr hkeysnd
  have hmemloc : ∀ loc' : String, loc' ∈ renderLocations locOrder ↔
      loc' ∈ goKeys (newFindingsTree F).findingsByPackageByLocation :=
    fun loc' => hlocperm.mem_iff
  have hids : ∀ loc' ∈ goKeys (newFindingsTree F).findingsByPackageByLocation,
      ((packagesRendered (newFindingsTree F) (pkgOrder loc')).map
        (fun p : Package => p.ID)).Perm
        (goKeys (goGetD loc' [] (newFindingsTree F).findingsByPackageByLocation)) := by
    intro loc' hmem
    have h1 : (packagesRendered (newFindingsTree F) (pkgOrder loc')).Perm
        ((pkgOrder loc').map
          (fun pid => goGetD pid zeroPackage (newFindingsTree F).packagesByID)) :=
      List.perm_insertionSort _ _
    have h2 := h1.map (fun p : Package => p.ID)
    have h3 : ((pkgOrder loc').map
        (fun pid => goGetD pid zeroPackage (newFindingsTree F).packagesByID)).map
        (fun p : Package => p.ID) = pkgOrder loc' := by
      rw [List.map_map]
      have hin : ∀ pid ∈ pkgOrder loc',
          ((fun p : Package => p.ID) ∘
            (fun pid => goGetD pid zeroPackage (newFindingsTree F).packagesByID)) pid =
            pid := by
        intro pid hpid
        have hpid' : pid ∈ goKeys
            (goGetD loc' [] (newFindingsTree F).findingsByPackageByLocation) :=
          (hpo loc' hmem).mem_iff.mp hpid
        exact lookup_ID_of_mem F pid (inner_keys_sub F loc' pid hpid')
      rw [List.map_congr_left hin]
      simp
    exact (h2.trans (by rw [h3]; exact hpo loc' hmem))
  have hstep : ∀ (tree : List (String × List (String × List Finding)))
      (location : String),
      (packagesRendered (newFindingsTree F) (pkgOrder location)).foldl
          (fun tree2 pkg =>
            goUpdate location (goUpdate pkg.ID sortFindingsByVulnID) tree2) tree =
        goUpdate location
          (fun inner =>
            ((packagesRendered (newFindingsTree F) (pkgOrder location)).map
              (fun p : Package => p.ID)).foldl
              (fun inn pid => goUpdate pid sortFindingsByVulnID inn) inner) tree := by
    intro tree location
    rw [← foldl_inner_goUpdate, List.foldl_map]
  have hpost : (renderPost locOrder pkgOrder
        (newFindingsTree F)).findingsByPackageByLocation =
      (renderLocations locOrder).foldl
        (fun tree location =>
          goUpdate location
            (fun inner =>
              ((packagesRendered (newFindingsTree F) (pkgOrder location)).map
                (fun p : Package => p.ID)).foldl
                (fun inn pid => goUpdate pid sortFindingsByVulnID inn) inner) tree)
        (newFindingsTree F).findingsByPackageByLocation := by
    show (renderLocations locOrder).foldl
        (fun tree location =>
          (packagesRendered (newFindingsTree F) (pkgOrder location)).foldl
            (fun tree2 pkg =>
              goUpdate location (goUpdate pkg.ID sortFindingsByVulnID) tree2) tree)
        (newFindingsTree F).findingsByPackageByLocation = _
    rw [funext fun tree => funext fun location => hstep tree location]
  have houter : goFind loc ((renderPost locOrder pkgOrder
        (newFindingsTree F)).findingsByPackageByLocation) =
      if loc ∈ renderLocations locOrder then
        (goFind loc (newFindingsTree F).findingsByPackageByLocation).map
          (fun inner =>
            ((packagesRendered (newFindingsTree F) (pkgOrder loc)).map
              (fun p : Package => p.ID)).foldl
              (fun inn pid => goUpdate pid sortFindingsByVulnID inn) inner)
      else goFind loc (newFindingsTree F).findingsByPackageByLocation := by
    rw [hpost]
    exact foldl_goUpdate_pointwise
      (fun location inner =>
        ((packagesRendered (newFindingsTree F) (pkgOrder location)).map
          (fun p : Package => p.ID)).foldl
          (fun inn pid => goUpdate pid sortFindingsByVulnID inn) inner)
      (renderLocations locOrder) hlocnd
      (newFindingsTree F).findingsByPackageByLocation loc
  simp only [bucket]
  rw [goGetD_eq_goFind loc [] ((renderPost locOrder pkgOrder
      (newFindingsTree F)).findingsByPackageByLocation), houter]
  by_cases hmem : loc ∈ renderLocations locOrder
  · rw [if_pos hmem]
    have hmemT : loc ∈ goKeys (newFindingsTree F).findingsByPackageByLocation :=
      (hmemloc loc).mp hmem
    rcases (mem_goKeys_iff_goFind loc _).mp hmemT with ⟨inner, hinner⟩
    have hinnerT : goGetD loc [] (newFindingsTree F).findingsByPackageByLocation =
        inner := by
      rw [goGetD_eq_goFind, hinner, Option.getD_some]
    rw [hinner, hinnerT, Option.map_some', Option.getD_some]
    have hidsnd : ((packagesRendered (newFindingsTree F) (pkgOrder loc)).map
        (fun p : Package => p.ID)).Nodup :=
      (hids loc hmemT).nodup_iff.mpr (inner_keys_nodup F loc)
    have hpw : goFind packageID
        (((packagesRendered (newFindingsTree F) (pkgOrder loc)).map
          (fun p : Package => p.ID)).foldl
          (fun inn pid => goUpdate pid sortFindingsByVulnID inn) inner) =
        if packageID ∈ ((packagesRendered (newFindingsTree F) (pkgOrder loc)).map
            (fun p : Package => p.ID)) then
          (goFind packageID inner).map sortFindingsByVulnID
        else goFind packageID inner :=
      foldl_goUpdate_pointwise (fun _ => sortFindingsByVulnID) _ hidsnd inner packageID
    rw [goGetD_eq_goFind packageID [], hpw, goGetD_eq_goFind packageID [] inner]
    by_cases hpid : packageID ∈ ((packagesRendered (newFindingsTree F)
        (pkgOrder loc)).map (fun p : Package => p.ID))
    · rw [if_pos hpid]
      have hpidk : packageID ∈ goKeys inner := by
        rw [← hinnerT]
        exact ((hids loc hmemT).mem_iff).mp hpid
      rcases (mem_goKeys_iff_goFind packageID inner).mp hpidk with ⟨b, hb⟩
      rw [hb, Option.map_some', Option.getD_some, Option.getD_some]
    · rw [if_neg hpid]
      have hpidk : packageID ∉ goKeys inner := by
        intro hx
        apply hpid
        rw [← hinnerT] at hx
        exact ((hids loc hmemT).mem_iff).mpr (by rw [hinnerT] at hx ⊢; exact hx)
      have hnone : goFind packageID inner = none := by
        cases hfind : goFind packageID inner with
        | none => rfl
        | some b => exact absurd ((mem_goKeys_iff_goFind packageID inner).mpr ⟨b, hfind⟩) hpidk
      rw [hnone]
      rfl
  · rw [if_neg hmem]
    have hmemT : loc ∉ goKeys (newFindingsTree F).findingsByPackageByLocation :=
      fun hx => hmem ((hmemloc loc).mpr hx)
    have hnone : goFind loc (newFindingsTree F).findingsByPackageByLocation = none := by
      cases hfind : goFind loc (newFindingsTree F).findingsByPackageByLocation with
      | none => rfl
      | some v => exact absurd ((mem_goKeys_iff_goFind loc _).mpr ⟨v, hfind⟩) hmemT
    rw [hnone, goGetD_eq_goFind loc [] (newFindingsTree F).findingsByPackageByLocation,
      hnone]
    rfl

theorem sortFindingsByVulnID_idem (l : List Finding) :
    sortFindingsByVulnID (sortFindingsByVulnID l) = sortFindingsByVulnID l :=
  List.Sorted.insertionSort_eq (List.sorted_insertionSort _ l)

/-- A tree whose single bucket holds two findings out of vulnerability-ID
order. -/
def treeOutOfOrder : findingsTree :=
  newFindingsTree [⟨pkgAlpha, ⟨"CVE-2024-0002", [], "Low", ""⟩⟩, ⟨pkgAlpha, vulnHigh⟩]

/-- **C9 (counterexample).** The claim says rendering leaves the grouped
structure entirely unchanged, the order of findings within every bucket
included.  But `sort.SliceStable(findings, ...)` sorts the bucket's
backing slice in place: after rendering a tree whose bucket held the
findings in insertion order `[CVE-2024-0002, CVE-2024-0001]`, the bucket
holds them sorted, so the post-render structure differs from the
freshly-built one. -/
theorem render_mutates_buckets :
    (render false ["/bin/a"] (fun _ => ["id1"]) treeOutOfOrder).2 ≠ treeOutOfOrder := by
  decide

/-- **C9 (amended).** Rendering produces its text without touching the
package-metadata map, but it does mutate the grouping: after rendering,
every `(Location, PackageID)` bucket holds the stable sort by
`Vulnerability.ID` of its previous contents (the in-place
`sort.SliceStable` on each visited bucket slice).  The text itself is
unaffected: re-rendering the mutated structure with the same enumerations
yields the same output. -/
theorem render_state_and_text (F : List Finding) (termSupportsHyperlinks : Bool)
    (locOrder : List String) (pkgOrder : String → List String)
    (hlo : validLocOrder (newFindingsTree F) locOrder)
    (hpo : ∀ loc ∈ goKeys (newFindingsTree F).findingsByPackageByLocation,
      validPkgOrder (newFindingsTree F) loc (pkgOrder loc)) :
    (render termSupportsHyperlinks locOrder pkgOrder
        (newFindingsTree F)).2.packagesByID = (newFindingsTree F).packagesByID ∧
      (∀ loc packageID,
        bucket (render termSupportsHyperlinks locOrder pkgOrder
            (newFindingsTree F)).2 loc packageID =
          sortFindingsByVulnID (bucket (newFindingsTree F) loc packageID)) ∧
      (render termSupportsHyperlinks locOrder pkgOrder
          (render termSupportsHyperlinks locOrder pkgOrder (newFindingsTree F)).2).1 =
        (render termSupportsHyperlinks locOrder pkgOrder (newFindingsTree F)).1 := by
  refine ⟨rfl,
    fun loc packageID => renderPost_bucket F locOrder pkgOrder hlo hpo loc packageID,
    ?_⟩
  have hfind : ∀ loc pid,
      findingsRendered (renderPost locOrder pkgOrder (newFindingsTree F)) loc pid =
        findingsRendered (newFindingsTree F) loc pid := by
    intro loc pid
    unfold findingsRendered
    rw [renderPost_bucket F locOrder pkgOrder hlo hpo loc pid]
    exact sortFindingsByVulnID_idem _
  have hpkgs : ∀ o : List String,
      packagesRendered (renderPost locOrder pkgOrder (newFindingsTree F)) o =
        packagesRendered (newFindingsTree F) o := fun o => rfl
  show String.intercalate "\n" (renderLines termSupportsHyperlinks locOrder pkgOrder
      (renderPost locOrder pkgOrder (newFindingsTree F))) =
    String.intercalate "\n" (renderLines termSupportsHyperlinks locOrder pkgOrder
      (newFindingsTree F))
  unfold renderLines locationBlock
  simp only [hfind, hpkgs]

/-- Witness for the amended C9 at a concrete one-finding report. -/
theorem render_state_and_text_witness :
    (render false ["/bin/a"] (fun _ => ["id1"])
        (newFindingsTree [⟨pkgAlpha, vulnHigh⟩])).2.packagesByID =
      (newFindingsTree [⟨pkgAlpha, vulnHigh⟩]).packagesByID ∧
      (∀ loc packageID,
        bucket (render false ["/bin/a"] (fun _ => ["id1"])
            (newFindingsTree [⟨pkgAlpha, vulnHigh⟩])).2 loc packageID =
          sortFindingsByVulnID
            (bucket (newFindingsTree [⟨pkgAlpha, vulnHigh⟩]) loc packageID)) ∧
      (render false ["/bin/a"] (fun _ => ["id1"])
          (render false ["/bin/a"] (fun _ => ["id1"])
            (newFindingsTree [⟨pkgAlpha, vulnHigh⟩])).2).1 =
        (render false ["/bin/a"] (fun _ => ["id1"])
          (newFindingsTree [⟨pkgAlpha, vulnHigh⟩])).1 :=
  render_state_and_text [⟨pkgAlpha, vulnHigh⟩] false ["/bin/a"] (fun _ => ["id1"])
    (by decide) (by decide)

/-! ## The CLI loop of the `Scan` command -/

/-- The outcome the environment produces for one apk file argument:
`os.Open` can fail, `scan.APK` can fail, or scanning yields findings. -/
inductive ArgOutcome where
  | openErr : String → ArgOutcome
  | scanErr : String → ArgOutcome
  | ok : List Finding → ArgOutcome

/-- The findings an argument yields when its scan succeeds. -/
def findingsAt (env : String → ArgOutcome) (arg : String) : List Finding :=
  match env arg with
  | ArgOutcome.ok findings => findings
  | _ => []

/-- The `RunE` loop of the `Scan` command, with file opening and the
scanner abstracted into `env`: arguments are processed strictly in
order; an open or scan failure returns that error immediately; after
reporting an argument's findings, if `requireZeroFindings` is set and
more than zero findings were found, the loop returns an error at once.
The first component records the arguments actually opened. -/
def runScan (env : String → ArgOutcome) (requireZeroFindings : Bool) :
    List String → List String × Option String
  | [] => ([], none)
  | arg :: rest =>
    match env arg with
    | ArgOutcome.openErr e => ([arg], some ("failed to open apk file: " ++ e))
    | ArgOutcome.scanErr e => ([arg], some e)
    | ArgOutcome.ok findings =>
      if requireZeroFindings && decide (findings.length > 0) then
        ([arg], some "more than 0 vulnerabilities found")
      else
        let r := runScan env requireZeroFindings rest
        (arg :: r.1, r.2)

theorem runScan_requireZero_aux (env : String → ArgOutcome) (a : String)
    (post : List String) (ha : findingsAt env a ≠ []) :
    ∀ pre : List String,
      (∀ b ∈ pre ++ a :: post, ∃ fs, env b = ArgOutcome.ok fs) →
      (∀ b ∈ pre, findingsAt env b = []) →
      runScan env true (pre ++ a :: post) =
        (pre ++ [a], some "more than 0 vulnerabilities found") := by
  intro pre
  induction pre with
  | nil =>
    intro hok _
    rcases hok a (by simp) with ⟨fs, hfs⟩
    have hfa : findingsAt env a = fs := by rw [findingsAt, hfs]
    have hlen : 0 < fs.length :=
      List.length_pos.mpr (by rw [← hfa]; exact ha)
    rw [List.nil_append]
    simp only [runScan]
    rw [hfs]
    simp [hlen]
  | cons b pre ih =>
    intro hok hpre
    rcases hok b (by simp) with ⟨fs, hfs⟩
    have hfb : findingsAt env b = fs := by rw [findingsAt, hfs]
    have hbnil : fs = [] := by rw [← hfb]; exact hpre b (by simp)
    subst hbnil
    rw [List.cons_append]
    simp only [runScan]
    rw [hfs]
    rw [ih (fun c hc => hok c (by simp [hc])) (fun c hc => hpre c (by simp [hc]))]
    simp

theorem runScan_no_flag (env : String → ArgOutcome) :
    ∀ args : List String,
      (∀ b ∈ args, ∃ fs, env b = ArgOutcome.ok fs) →
      runScan env false args = (args, none) := by
  intro args
  induction args with
  | nil => intro _; rfl
  | cons b args ih =>
    intro hok
    rcases hok b (by simp) with ⟨fs, hfs⟩
    simp only [runScan]
    rw [hfs]
    simp only [Bool.false_and, Bool.false_eq_true, if_false]
    rw [ih (fun c hc => hok c (by simp [hc]))]

/-- **C10.** With the require-zero flag set, the command returns the
"more than 0 vulnerabilities found" error right after the first argument
whose scan yields at least one finding, having opened exactly the
arguments up to and including it — later arguments are never opened.
With the flag unset (and no open or scanner errors), every argument is
processed and no error is returned. -/
theorem require_zero_short_circuits (env : String → ArgOutcome)
    (args pre post : List String) (a : String)
    (hok : ∀ b ∈ args, ∃ fs, env b = ArgOutcome.ok fs) :
    (args = pre ++ a :: post →
      (∀ b ∈ pre, findingsAt env b = []) →
      findingsAt env a ≠ [] →
      runScan env true args =
        (pre ++ [a], some "more than 0 vulnerabilities found")) ∧
      runScan env false args = (args, none) := by
  constructor
  · intro hargs hpre ha
    subst hargs
    exact runScan_requireZero_aux env a post ha pre hok hpre
  · exact runScan_no_flag env args hok

/-- A concrete environment whose second argument yields one finding. -/
def envWitness : String → ArgOutcome := fun arg =>
  if arg = "b.apk" then ArgOutcome.ok [⟨pkgAlpha, vulnHigh⟩] else ArgOutcome.ok []

/-- Witness for C10: with the flag, the third argument is never opened;
without it, all three are processed. -/
theorem require_zero_short_circuits_witness :
    runScan envWitness true ["a.apk", "b.apk", "c.apk"] =
        (["a.apk", "b.apk"], some "more than 0 vulnerabilities found") ∧
      runScan envWitness false ["a.apk", "b.apk", "c.apk"] =
        (["a.apk", "b.apk", "c.apk"], none) := by
  have hok : ∀ b ∈ ["a.apk", "b.apk", "c.apk"], ∃ fs, envWitness b = ArgOutcome.ok fs := by
    intro b _
    unfold envWitness
    by_cases h : b = "b.apk"
    · exact ⟨[⟨pkgAlpha, vulnHigh⟩], by rw [if_pos h]⟩
    · exact ⟨[], by rw [if_neg h]⟩
  have h := require_zero_short_circuits envWitness ["a.apk", "b.apk", "c.apk"]
    ["a.apk"] ["c.apk"] "b.apk" hok
  exact ⟨h.1 rfl (by decide) (by decide), h.2⟩
